import Mathlib

/-!
Shallow embedding of the sanchita-notes application (React/TypeScript) in Lean 4,
covering the inline folder/tag tokenizer of the note editor (`handleContentChange`
in `src/App.tsx`), derived tag extraction (`parseMetadataFromText`), folder
auto-pruning and persistence (`useStorage` in the storage service), note list
filtering (`filteredNotes`), and the AI enrichment entry point
(`analyzeNoteContent` in `src/services/geminiService.ts`).

Strings are embedded as `List Char` (`Str`).  JavaScript regular expression
matches, `lastIndexOf`-based removal, truthiness of optional strings, and the
`Set`-based deduplication are modelled explicitly below, each next to the source
construct it embeds.
-/

namespace Sanchita

/-- JavaScript strings are embedded as lists of characters. -/
abbrev Str := List Char

/-- The character class `[a-zA-Z0-9_-]` used by both trigger regexes and the
derived-tag regex in `src/App.tsx`. -/
def isNameChar (c : Char) : Bool :=
  ('a' ≤ c && c ≤ 'z') || ('A' ≤ c && c ≤ 'Z') || ('0' ≤ c && c ≤ '9') ||
    c = '_' || c = '-'

/-- The JavaScript `\s` character class (whitespace as matched by the trigger
regexes `/@([a-zA-Z0-9_-]+)(\s)$/` and `/#([a-zA-Z0-9_-]+)(\s)$/`). -/
def isJSWhitespace (c : Char) : Bool :=
  c = ' ' || c = '\t' || c = '\n' || c = '\r' || c = '\u000B' || c = '\u000C' ||
    c = ' ' || c = ' ' || (' ' ≤ c && c ≤ ' ') ||
    c = ' ' || c = ' ' || c = ' ' || c = ' ' ||
    c = '　' || c = '﻿'

/-- Embedding of JavaScript `String.prototype.toLowerCase` on the strings the
application lower-cases (folder names and tags). -/
def toLowerStr (s : Str) : Str := s.map Char.toLower

/-- Embedding of JavaScript string truthiness for an optional string value:
`null`/`undefined` and the empty string are falsy. -/
def strTruthy : Option Str → Bool
  | none => false
  | some s => !s.isEmpty

/-- Embedding of JavaScript `String.prototype.trim` (used by the editor's
folder/tag input handlers). -/
def trimStr (s : Str) : Str :=
  ((s.dropWhile isJSWhitespace).reverse.dropWhile isJSWhitespace).reverse

/-- Embedding of JavaScript `String.prototype.includes` (substring test used by
the search filter). -/
def containsSub (hay q : Str) : Bool :=
  (List.range (hay.length + 1)).any (fun i => q.isPrefixOf (hay.drop i))

/-- Embedding of `[...new Set(l)]`: deduplication keeping the first occurrence
of each element, in order. `seen` accumulates the elements already emitted. -/
def dedupFirst (seen : Str → Bool) : List Str → List Str
  | [] => []
  | a :: l =>
      if seen a then dedupFirst seen l
      else a :: dedupFirst (fun x => seen x || x = a) l

/-! ### Data model (`src/types.ts`) -/

/-- `Folder` record from `src/types.ts`. -/
structure Folder where
  id : Str
  name : Str
  icon : Option Str
deriving DecidableEq

/-- `Note` record from `src/types.ts`, after load-time migration has supplied
`folderIds` and `isDeleted`. -/
structure Note where
  id : Str
  title : Str
  content : Str
  folderIds : List Str
  tags : List Str
  summary : Option Str
  createdAt : Int
  updatedAt : Int
  isDeleted : Bool
deriving DecidableEq

/-- A raw note record as read back from the persisted JSON, before migration:
`folderIds` is `none` when the stored field is missing or not an array, and
`folderId` / `isDeleted` are the optional legacy fields. -/
structure RawNote where
  id : Str
  title : Str
  content : Str
  folderIds : Option (List Str)
  folderId : Option Str
  tags : List Str
  summary : Option Str
  createdAt : Int
  updatedAt : Int
  isDeleted : Option Bool
deriving DecidableEq

/-- `ViewState` from `src/types.ts`. -/
inductive ViewState where
  | home | folders | tags | settings | editor | trash
deriving DecidableEq

/-- `DEFAULT_FOLDERS` from `src/types.ts`. -/
def DEFAULT_FOLDERS : List Folder := []

/-! ### Trigger matching (`handleContentChange`, `src/App.tsx`)

`val.match(/@([a-zA-Z0-9_-]+)(\s)$/)` succeeds exactly when the buffer ends in
a single `\s` character preceded by a non-empty run of name characters preceded
by the trigger character: scanning from the left, the regex engine commits to
the last `@` whose following name-character run reaches the final whitespace,
so the captured name is the maximal run of name characters ending just before
the final character.  `matchTrailingTrigger` computes that match, returning the
captured name (group 1) and the whole matched substring (`m[0]`). -/

/-- Worker on the reversed buffer: the final character must be `\s`, the
maximal run of name characters before it must be non-empty, and the character
before that run must be the trigger. -/
def matchTrailingRev (trig : Char) : Str → Option (Str × Str)
  | [] => none
  | w :: rest =>
      if isJSWhitespace w then
        if (rest.takeWhile isNameChar).isEmpty then none
        else
          match rest.dropWhile isNameChar with
          | t :: _ =>
              if t = trig then
                some ((rest.takeWhile isNameChar).reverse,
                  trig :: ((rest.takeWhile isNameChar).reverse ++ [w]))
              else none
          | [] => none
      else none

/-- The match of `/T([a-zA-Z0-9_-]+)(\s)$/` against `val` for trigger character
`T`: `some (name, fullMatch)` on success. -/
def matchTrailingTrigger (trig : Char) (val : Str) : Option (Str × Str) :=
  matchTrailingRev trig val.reverse

/-- Embedding of JavaScript `val.lastIndexOf(pat)` (search for the last
occurrence, `none` standing for `-1`), via a downward scan of candidate start
positions. -/
def lastIndexOfAux (pat s : Str) : Nat → Option Nat
  | 0 => if pat.isPrefixOf s then some 0 else none
  | i + 1 => if pat.isPrefixOf (s.drop (i + 1)) then some (i + 1) else lastIndexOfAux pat s i

/-- `s.lastIndexOf(pat)` as an `Option Nat`. -/
def lastIndexOf (pat s : Str) : Option Nat := lastIndexOfAux pat s s.length

/-- Embedding of the removal step
`val.slice(0, val.lastIndexOf(fullMatch)) + val.slice(val.lastIndexOf(fullMatch) + fullMatch.length)`
from `handleContentChange`.  In both call sites `fullMatch` is a non-empty
suffix of `val`, so the index always exists; the `none` fallback is inert. -/
def removeTrigger (val fullMatch : Str) : Str :=
  match lastIndexOf fullMatch val with
  | some i => val.take i ++ val.drop (i + fullMatch.length)
  | none => val

/-! ### Derived tag extraction (`parseMetadataFromText`, `src/App.tsx`)

`text.matchAll(/#([a-zA-Z0-9_-]+)/g)` scans left to right; each match is a `#`
followed by the maximal non-empty run of name characters, and scanning resumes
after the run.  `scanTags` performs that scan, returning the captured groups in
order. -/

theorem length_dropWhile_le {α : Type} (p : α → Bool) (l : List α) :
    (l.dropWhile p).length ≤ l.length := by
  induction l with
  | nil => simp
  | cons a l ih =>
      by_cases h : p a
      · rw [List.dropWhile_cons_of_pos h]; exact Nat.le_succ_of_le ih
      · rw [List.dropWhile_cons_of_neg h]

/-- The successive capture groups of `/#([a-zA-Z0-9_-]+)/g` over the text. -/
def scanTags : List Char → List Str
  | [] => []
  | c :: rest =>
      if c = '#' then
        if (rest.takeWhile isNameChar).isEmpty then scanTags rest
        else rest.takeWhile isNameChar :: scanTags (rest.dropWhile isNameChar)
      else scanTags rest
termination_by l => l.length
decreasing_by
  · simp
  · simp only [List.length_cons]
    exact Nat.lt_succ_of_le (length_dropWhile_le isNameChar rest)
  · simp

/-- `parseMetadataFromText` from `src/App.tsx`: lower-case every captured tag
and deduplicate via `[...new Set(tags)]`. -/
def parseMetadataFromText (text : Str) : List Str :=
  dedupFirst (fun _ => false) ((scanTags text).map toLowerStr)

/-! ### Editor state and handlers (`EditorView`, `src/App.tsx`) -/

/-- The editor-local state relevant to the tokenizer: the ambient folder
collection (read and extended through the `createFolder` callback), the note's
manual folder associations, manual tags, and the content buffer. -/
structure EditorState where
  folders : List Folder
  manualFolderIds : List Str
  manualTags : List Str
  content : Str
deriving DecidableEq

/-- `createFolder` from the storage service: a new folder with a fresh
identifier (`crypto.randomUUID()`, passed in as `freshId`), the given name and
the default icon, appended to the collection.  Returns the new folder and the
updated collection. -/
def createFolder (freshId : Str) (name : Str) (folders : List Folder) :
    Folder × List Folder :=
  let f : Folder := { id := freshId, name := name, icon := some "folder".toList }
  (f, folders ++ [f])

/-- `folders.find(f => f.name.toLowerCase() === name.toLowerCase())`. -/
def findFolderByName (folders : List Folder) (name : Str) : Option Folder :=
  folders.find? (fun f => toLowerStr f.name = toLowerStr name)

/-- `handleContentChange` from `src/App.tsx`: try the folder trigger first,
then the tag trigger, else accept the buffer verbatim. -/
def handleContentChange (freshId : Str) (st : EditorState) (val : Str) :
    EditorState :=
  match matchTrailingTrigger '@' val with
  | some (folderName, fullMatch) =>
      let resolved :=
        match findFolderByName st.folders folderName with
        | some f => (f, st.folders)
        | none => createFolder freshId folderName st.folders
      let targetFolder := resolved.1
      let manualFolderIds' :=
        if targetFolder.id ∈ st.manualFolderIds then st.manualFolderIds
        else st.manualFolderIds ++ [targetFolder.id]
      { st with
          folders := resolved.2
          manualFolderIds := manualFolderIds'
          content := removeTrigger val fullMatch }
  | none =>
      match matchTrailingTrigger '#' val with
      | some (rawTag, fullMatch) =>
          let tagName := toLowerStr rawTag
          let manualTags' :=
            if tagName ∈ st.manualTags then st.manualTags
            else st.manualTags ++ [tagName]
          { st with
              manualTags := manualTags'
              content := removeTrigger val fullMatch }
      | none => { st with content := val }

/-- `finalTags` from `src/App.tsx`:
`[...new Set([...manualTags, ...derivedTags])]`, where the derived tags are
recomputed from the content by `parseMetadataFromText`. -/
def finalTags (st : EditorState) : List Str :=
  dedupFirst (fun _ => false) (st.manualTags ++ parseMetadataFromText st.content)

/-- `handleFolderInputKeyDown` commit path (Enter/space/comma) from
`src/App.tsx`: trim, strip one leading `@`, resolve case-insensitively or
create, and add the identifier if not already present. -/
def folderInputCommit (freshId : Str) (raw : Str) (st : EditorState) :
    EditorState :=
  let rawName := trimStr raw
  if rawName.isEmpty then st
  else
    let name := if rawName.head? = some '@' then rawName.tail else rawName
    if name.isEmpty then st
    else
      let resolved :=
        match findFolderByName st.folders name with
        | some f => (f, st.folders)
        | none => createFolder freshId name st.folders
      let manualFolderIds' :=
        if resolved.1.id ∈ st.manualFolderIds then st.manualFolderIds
        else st.manualFolderIds ++ [resolved.1.id]
      { st with folders := resolved.2, manualFolderIds := manualFolderIds' }

/-- `handleTagKeyDown` commit path (Enter/space/comma) from `src/App.tsx`:
trim, strip one leading `#` (`replace(/^#/, ...)` with the empty replacement),
lower-case, and add if non-empty and not already present. -/
def tagInputCommit (raw : Str) (st : EditorState) : EditorState :=
  let val := toLowerStr
    (if (trimStr raw).head? = some '#' then (trimStr raw).tail else trimStr raw)
  if !val.isEmpty && !(val ∈ st.manualTags : Bool) then
    { st with manualTags := st.manualTags ++ [val] }
  else st

/-- `toggleFolder` from `src/App.tsx` (editing mode): remove the identifier if
present, otherwise append it. -/
def toggleFolder (id : Str) (st : EditorState) : EditorState :=
  if id ∈ st.manualFolderIds then
    { st with manualFolderIds := st.manualFolderIds.filter (fun fid => fid ≠ id) }
  else
    { st with manualFolderIds := st.manualFolderIds ++ [id] }

/-- `removeTag` from `src/App.tsx`. -/
def removeTag (t : Str) (st : EditorState) : EditorState :=
  { st with manualTags := st.manualTags.filter (fun tag => tag ≠ t) }

/-- `handleSave` from `src/App.tsx`: the note written back on save. -/
def editorSavedNote (note : Note) (st : EditorState) (now : Int) : Note :=
  { note with
      title := []
      content := st.content
      folderIds := st.manualFolderIds
      tags := finalTags st
      updatedAt := now }

/-! ### Storage service (`useStorage`, storage service source) -/

/-- The load-time migration applied to each parsed note record:
`folderIds: Array.isArray(n.folderIds) ? n.folderIds : (n.folderId ? [n.folderId] : [])`
and `isDeleted: n.isDeleted || false`. -/
def migrateNote (r : RawNote) : Note :=
  { id := r.id
    title := r.title
    content := r.content
    folderIds :=
      match r.folderIds with
      | some l => l
      | none =>
          match r.folderId with
          | some fid => if fid.isEmpty then [] else [fid]
          | none => []
    tags := r.tags
    summary := r.summary
    createdAt := r.createdAt
    updatedAt := r.updatedAt
    isDeleted := r.isDeleted.getD false }

/-- The result of reading the notes key: `none` when nothing is stored,
`some (Except.error e)` when `JSON.parse` (or the subsequent array traversal)
throws, `some (Except.ok raws)` when it yields an array of records. -/
def loadNotes : Option (Except Str (List RawNote)) → List Note
  | none => []
  | some (Except.error _) => []
  | some (Except.ok raws) => raws.map migrateNote

/-- The result of reading the folders key, with the same error convention. -/
def loadFolders : Option (Except Str (List Folder)) → List Folder
  | none => DEFAULT_FOLDERS
  | some (Except.error _) => DEFAULT_FOLDERS
  | some (Except.ok fs) => fs

/-- The `usedFolderIds` set of the auto-cleanup effect: every folder identifier
referenced by some non-deleted note. -/
def usedFolderIds (notes : List Note) : List Str :=
  (notes.filter (fun n => !n.isDeleted)).flatMap (fun n => n.folderIds)

/-- The number of non-deleted notes referencing a folder identifier (the usage
count the specification speaks about). -/
def folderUseCount (notes : List Note) (fid : Str) : Nat :=
  (notes.filter (fun n => !n.isDeleted && fid ∈ n.folderIds)).length

/-- The auto-cleanup effect on the folder collection:
`prev.filter(f => usedFolderIds.has(f.id))`. -/
def cleanupFolders (notes : List Note) (prev : List Folder) : List Folder :=
  prev.filter (fun f => f.id ∈ usedFolderIds notes)

/-- The auto-cleanup effect together with its persistence write: the stored
folder list is rewritten only when the filtered collection changed length.
Returns (new in-memory collection, new stored collection). -/
def cleanupFoldersEffect (notes : List Note) (prev stored : List Folder) :
    List Folder × List Folder :=
  let newFolders := cleanupFolders notes prev
  if newFolders.length ≠ prev.length then (newFolders, newFolders)
  else (prev, stored)

/-- `saveNote` from the storage service: replace the first note with the same
identifier, else prepend. -/
def saveNote (note : Note) (prev : List Note) : List Note :=
  match prev.findIdx? (fun n => n.id = note.id) with
  | some i => prev.set i note
  | none => note :: prev

/-- `deleteNote` (soft delete) from the storage service. -/
def deleteNote (id : Str) (prev : List Note) : List Note :=
  prev.map (fun n => if n.id = id then { n with isDeleted := true } else n)

/-- `restoreNote` from the storage service. -/
def restoreNote (id : Str) (prev : List Note) : List Note :=
  prev.map (fun n => if n.id = id then { n with isDeleted := false } else n)

/-- `permanentlyDeleteNote` from the storage service. -/
def permanentlyDeleteNote (id : Str) (prev : List Note) : List Note :=
  prev.filter (fun n => n.id ≠ id)

/-- `emptyTrash` from the storage service. -/
def emptyTrash (prev : List Note) : List Note :=
  prev.filter (fun n => !n.isDeleted)

/-! ### Note list filtering (`filteredNotes`, `src/App.tsx`) -/

/-- The search predicate of `filteredNotes`:
`n.content.toLowerCase().includes(q) || (n.summary && n.summary.toLowerCase().includes(q))`. -/
def searchHit (q : Str) (n : Note) : Bool :=
  containsSub (toLowerStr n.content) q ||
    (match n.summary with
     | some s => !s.isEmpty && containsSub (toLowerStr s) q
     | none => false)

/-- `filteredNotes` from `src/App.tsx`: non-deleted notes, narrowed by the
active folder or tag filter and the search query, sorted by `updatedAt`
descending (stable, per the ECMAScript `Array.prototype.sort` guarantee). -/
def filteredNotes (notes : List Note) (view : ViewState)
    (activeFolderId activeTag : Option Str) (searchQuery : Str) : List Note :=
  let f1 := notes.filter (fun n => !n.isDeleted)
  let f2 :=
    if view = ViewState.folders && strTruthy activeFolderId then
      f1.filter (fun n => activeFolderId.getD [] ∈ n.folderIds)
    else if view = ViewState.tags && strTruthy activeTag then
      f1.filter (fun n => activeTag.getD [] ∈ n.tags)
    else f1
  let f3 :=
    if searchQuery.isEmpty then f2
    else f2.filter (searchHit (toLowerStr searchQuery))
  f3.mergeSort (fun a b => b.updatedAt ≤ a.updatedAt)

/-- `createNewNote` from `src/App.tsx`: the freshly created empty note. -/
def createNewNote (freshId : Str) (view : ViewState)
    (activeFolderId activeTag : Option Str) (now : Int) : Note :=
  { id := freshId
    title := []
    content := []
    folderIds :=
      if view = ViewState.folders && strTruthy activeFolderId then
        [activeFolderId.getD []]
      else []
    tags :=
      if view = ViewState.tags && strTruthy activeTag then [activeTag.getD []]
      else []
    summary := none
    createdAt := now
    updatedAt := now
    isDeleted := false }

/-! ### AI enrichment (`analyzeNoteContent`, `src/services/geminiService.ts`) -/

/-- The structured analysis result. -/
structure AIAnalysisResult where
  title : Str
  summary : Str
  tags : List Str
deriving DecidableEq

/-- The model response: an optional `text` field. -/
structure GenResponse where
  text : Option Str
deriving DecidableEq

/-- The prompt string built by `analyzeNoteContent`; the note content is
truncated by `content.substring(0, 5000)`. -/
def analysisPrompt (content : Str) : Str :=
  "Analyze the following note text and provide metadata: \"".toList ++
    content.take 5000 ++ "\"".toList

/-- The `try` body of `analyzeNoteContent` after the credential check: the
external call (`generate`, whose `error` case embeds a thrown exception) and,
on a truthy response text, `JSON.parse` (embedded by `jsonParse`, `error`
again standing for a thrown exception caught by the surrounding `catch`). -/
def analyzeResult (generate : Str → Except Str GenResponse)
    (jsonParse : Str → Except Str AIAnalysisResult) (prompt : Str) :
    Option AIAnalysisResult :=
  match generate prompt with
  | Except.error _ => none
  | Except.ok resp =>
      match resp.text with
      | some t =>
          if t.isEmpty then none
          else
            match jsonParse t with
            | Except.ok d => some d
            | Except.error _ => none
      | none => none

/-- `analyzeNoteContent`: `null` immediately when the credential is not
truthy; otherwise the request is issued with the truncated prompt.  Returns
the analysis result (or `none`) together with the prompt actually sent
(`none` when no request was made). -/
def analyzeNoteContent (apiKey : Option Str)
    (generate : Str → Except Str GenResponse)
    (jsonParse : Str → Except Str AIAnalysisResult) (content : Str) :
    Option AIAnalysisResult × Option Str :=
  if !strTruthy apiKey then (none, none)
  else (analyzeResult generate jsonParse (analysisPrompt content),
    some (analysisPrompt content))

/-! ### Application-level operations

The operations the UI can perform on the global state (note and folder
collections), assembled from the handlers above.  An edit session opens an
existing note in the editor, applies a sequence of editor events, and saves.
After every change to the note collection the auto-cleanup effect recomputes
the folder collection. -/

/-- The global application state. -/
structure AppModel where
  notes : List Note
  folders : List Folder
deriving DecidableEq

/-- One editor event inside an edit session. -/
inductive EditorOp where
  | contentChange (freshId : Str) (val : Str)
  | folderInput (freshId : Str) (raw : Str)
  | tagInput (raw : Str)
  | toggle (id : Str)
  | untag (t : Str)
deriving DecidableEq

/-- Dispatch one editor event to its handler. -/
def applyEditorOp (st : EditorState) : EditorOp → EditorState
  | EditorOp.contentChange freshId val => handleContentChange freshId st val
  | EditorOp.folderInput freshId raw => folderInputCommit freshId raw st
  | EditorOp.tagInput raw => tagInputCommit raw st
  | EditorOp.toggle id => toggleFolder id st
  | EditorOp.untag t => removeTag t st

/-- Run a sequence of editor events. -/
def runEditor (st : EditorState) (eops : List EditorOp) : EditorState :=
  eops.foldl applyEditorOp st

/-- One application-level operation. -/
inductive Op where
  | createNew (freshId : Str) (view : ViewState) (afid atag : Option Str) (now : Int)
  | editSession (noteId : Str) (eops : List EditorOp) (now : Int)
  | softDelete (id : Str)
  | restore (id : Str)
  | purge (id : Str)
  | clearTrash
deriving DecidableEq

/-- Apply one application-level operation, followed by the folder auto-cleanup
effect on the new note collection. -/
def applyOp (m : AppModel) : Op → AppModel
  | Op.createNew freshId view afid atag now =>
      let notes' := saveNote (createNewNote freshId view afid atag now) m.notes
      { notes := notes', folders := cleanupFolders notes' m.folders }
  | Op.editSession noteId eops now =>
      match m.notes.find? (fun n => n.id = noteId) with
      | none => m
      | some note =>
          let st0 : EditorState :=
            { folders := m.folders
              manualFolderIds := note.folderIds
              manualTags := note.tags
              content := note.content }
          let st := runEditor st0 eops
          let notes' := saveNote (editorSavedNote note st now) m.notes
          { notes := notes', folders := cleanupFolders notes' st.folders }
  | Op.softDelete id =>
      let notes' := deleteNote id m.notes
      { notes := notes', folders := cleanupFolders notes' m.folders }
  | Op.restore id =>
      let notes' := restoreNote id m.notes
      { notes := notes', folders := cleanupFolders notes' m.folders }
  | Op.purge id =>
      let notes' := permanentlyDeleteNote id m.notes
      { notes := notes', folders := cleanupFolders notes' m.folders }
  | Op.clearTrash =>
      let notes' := emptyTrash m.notes
      { notes := notes', folders := cleanupFolders notes' m.folders }

/-- Apply a sequence of application-level operations. -/
def applyOps (m : AppModel) (ops : List Op) : AppModel :=
  ops.foldl applyOp m

/-- The per-note well-formedness invariant of the data model: folder
associations and tags are duplicate-free. -/
def NoteWF (n : Note) : Prop := n.folderIds.Nodup ∧ n.tags.Nodup

/-! ## Theorems -/

/-- A concrete note used by witnesses. -/
def wNoteA : Note :=
  { id := ['a'], title := [], content := [], folderIds := [], tags := []
    summary := none, createdAt := 0, updatedAt := 0, isDeleted := false }

/-- A second concrete note with the same identifier as `wNoteA`. -/
def wNoteA2 : Note := { wNoteA with content := ['x'] }

/-- C10: `saveNote` with an identifier already present replaces exactly the
note at the first position carrying that identifier, leaving the length,
every other position, and hence the relative order unchanged; with a fresh
identifier it prepends the note, leaving all existing notes unchanged. -/
theorem C10_saveNote_frame (note : Note) (prev : List Note) :
    ((∀ n ∈ prev, n.id ≠ note.id) → saveNote note prev = note :: prev) ∧
    ((∃ n ∈ prev, n.id = note.id) →
      ∃ i, ∃ hi : i < prev.length,
        (prev.get ⟨i, hi⟩).id = note.id ∧
        (∀ j, ∀ hj : j < prev.length, j < i → (prev.get ⟨j, hj⟩).id ≠ note.id) ∧
        saveNote note prev = prev.set i note ∧
        (saveNote note prev).length = prev.length ∧
        (saveNote note prev)[i]? = some note ∧
        (∀ j, j ≠ i → (saveNote note prev)[j]? = prev[j]?)) := by
  constructor
  · intro h
    have hnone : prev.findIdx? (fun n => n.id = note.id) = none := by
      rw [List.findIdx?_eq_none_iff]
      intro x hx
      simpa using h x hx
    simp [saveNote, hnone]
  · rintro ⟨n, hn, hid⟩
    have hsome : ∃ i, prev.findIdx? (fun n => n.id = note.id) = some i := by
      rcases Option.eq_none_or_eq_some (prev.findIdx? (fun n => n.id = note.id)) with h | h
      · rw [List.findIdx?_eq_none_iff] at h
        have := h n hn
        simp [hid] at this
      · exact h
    obtain ⟨i, hfind⟩ := hsome
    obtain ⟨hi, hp, hmin⟩ := List.findIdx?_eq_some_iff_getElem.mp hfind
    refine ⟨i, hi, by simpa using hp, ?_, ?_, ?_, ?_, ?_⟩
    · intro j hj hji
      have := hmin j hji
      simpa using this
    · simp [saveNote, hfind]
    · simp [saveNote, hfind]
    · simp [saveNote, hfind, List.getElem?_set_self hi]
    · intro j hji
      simp [saveNote, hfind, List.getElem?_set_ne (Ne.symm hji)]

/-- Witness for C10 at concrete inputs: saving into a collection with no
matching identifier prepends, and saving into one with a matching identifier
replaces at position 0. -/
theorem C10_saveNote_frame_witness :
    saveNote wNoteA [] = [wNoteA] ∧
    saveNote wNoteA2 [wNoteA] = [wNoteA].set 0 wNoteA2 := by
  constructor
  · exact (C10_saveNote_frame wNoteA []).1 (by simp)
  · obtain ⟨i, hi, -, hmin, heq, -⟩ :=
      (C10_saveNote_frame wNoteA2 [wNoteA]).2 ⟨wNoteA, by simp, by decide⟩
    have hi1 : i < 1 := by simpa using hi
    have hi0 : i = 0 := by omega
    rw [heq, hi0]

/-! ### Trailing-trigger characterization and removal -/

theorem takeWhile_run {p : Char → Bool} (l1 : Str) (c : Char) (l2 : Str)
    (h1 : ∀ x ∈ l1, p x = true) (hc : p c = false) :
    (l1 ++ c :: l2).takeWhile p = l1 := by
  rw [List.takeWhile_append_of_pos h1, List.takeWhile_cons_of_neg (by simp [hc])]
  simp

theorem dropWhile_run {p : Char → Bool} (l1 : Str) (c : Char) (l2 : Str)
    (h1 : ∀ x ∈ l1, p x = true) (hc : p c = false) :
    (l1 ++ c :: l2).dropWhile p = c :: l2 := by
  rw [List.dropWhile_append_of_pos h1, List.dropWhile_cons_of_neg (by simp [hc])]

theorem reverse_decomp (p : Str) (t : Char) (name : Str) (w : Char) :
    (p ++ (t :: (name ++ [w]))).reverse
      = w :: (name.reverse ++ (t :: p.reverse)) := by
  simp

/-- A buffer of the form `p ++ T name w` (with `name` a non-empty run of name
characters, `w` whitespace, `T` not a name character) matches the trailing
trigger regex for `T`, capturing `name`, with whole match `T name w`. -/
theorem matchTrailingTrigger_suffix (trig : Char) (p name : Str) (w : Char)
    (hname : name ≠ []) (hchars : ∀ c ∈ name, isNameChar c = true)
    (hw : isJSWhitespace w = true) (htrig : isNameChar trig = false) :
    matchTrailingTrigger trig (p ++ (trig :: (name ++ [w])))
      = some (name, trig :: (name ++ [w])) := by
  have hrevchars : ∀ c ∈ name.reverse, isNameChar c = true := by
    intro c hc; exact hchars c (List.mem_reverse.mp hc)
  rw [matchTrailingTrigger, reverse_decomp]
  rw [matchTrailingRev, takeWhile_run name.reverse trig p.reverse hrevchars htrig,
    dropWhile_run name.reverse trig p.reverse hrevchars htrig]
  simp [hw, hname]

/-- A buffer of the same shape but whose character before the run is some
`other ≠ trig` does not match the trailing trigger regex for `trig`. -/
theorem matchTrailingTrigger_other (trig other : Char) (p name : Str) (w : Char)
    (hchars : ∀ c ∈ name, isNameChar c = true)
    (hother : isNameChar other = false) (hne : other ≠ trig) :
    matchTrailingTrigger trig (p ++ (other :: (name ++ [w]))) = none := by
  have hrevchars : ∀ c ∈ name.reverse, isNameChar c = true := by
    intro c hc; exact hchars c (List.mem_reverse.mp hc)
  rw [matchTrailingTrigger, reverse_decomp]
  rw [matchTrailingRev, takeWhile_run name.reverse other p.reverse hrevchars hother,
    dropWhile_run name.reverse other p.reverse hrevchars hother]
  by_cases hw : isJSWhitespace w = true
  · simp [hw, hne]
  · simp [Bool.of_not_eq_true hw]

theorem isPrefixOf_of_gt_length (pat l : Str) (h : l.length < pat.length) :
    pat.isPrefixOf l = false := by
  by_contra hc
  have : pat <+: l := List.isPrefixOf_iff_prefix.mp (by
    cases hpl : pat.isPrefixOf l
    · exact absurd hpl hc
    · rfl)
  exact absurd this.length_le (by omega)

theorem lastIndexOfAux_of_suffix (fm pre : Str) (hne : fm ≠ []) :
    ∀ k, pre.length ≤ k → lastIndexOfAux fm (pre ++ fm) k = some pre.length := by
  intro k
  induction k with
  | zero =>
      intro hk
      have hpre : pre = [] := List.eq_nil_of_length_eq_zero (Nat.le_zero.mp hk)
      subst hpre
      simp [lastIndexOfAux, List.isPrefixOf_iff_prefix]
  | succ k ih =>
      intro hk
      by_cases heq : pre.length = k + 1
      · have hdrop : (pre ++ fm).drop (k + 1) = fm := List.drop_left' heq
        rw [lastIndexOfAux, hdrop]
        simp [List.isPrefixOf_iff_prefix, heq]
      · have hle : pre.length ≤ k := by omega
        have hlen : ((pre ++ fm).drop (k + 1)).length < fm.length := by
          rw [List.length_drop, List.length_append]
          have : 0 < fm.length := List.length_pos.mpr hne
          omega
        rw [lastIndexOfAux, isPrefixOf_of_gt_length fm _ hlen]
        simp only [Bool.false_eq_true, if_false]
        exact ih hle

/-- Removing the matched trigger substring from a buffer that ends in it
yields exactly the buffer with that suffix removed. -/
theorem removeTrigger_append (pre fm : Str) (hne : fm ≠ []) :
    removeTrigger (pre ++ fm) fm = pre := by
  have hlast : lastIndexOf fm (pre ++ fm) = some pre.length := by
    rw [lastIndexOf]
    exact lastIndexOfAux_of_suffix fm pre hne (pre ++ fm).length
      (by rw [List.length_append]; omega)
  have hdrop : (pre ++ fm).drop (pre.length + fm.length) = [] := by
    apply List.drop_eq_nil_of_le
    rw [List.length_append]
  rw [removeTrigger, hlast]
  show List.take pre.length (pre ++ fm) ++ List.drop (pre.length + fm.length) (pre ++ fm) = pre
  rw [List.take_left, hdrop, List.append_nil]

/-- The empty editor state, used by witnesses. -/
def wEmptyEditor : EditorState :=
  { folders := [], manualFolderIds := [], manualTags := [], content := [] }

/-- C1: on a buffer ending in `@name` plus one whitespace character, one pass
of the content-change handler strips exactly that trailing substring, keeps
the manual tags, and ensures the folder set contains (and the note references)
a folder whose name equals `name` case-insensitively — the first
case-insensitive match if one exists, else a newly created folder named as
typed — adding its identifier only if not already present. -/
theorem C1_folder_trigger (freshId : Str) (st : EditorState) (p name : Str)
    (w : Char) (hname : name ≠ []) (hchars : ∀ c ∈ name, isNameChar c = true)
    (hw : isJSWhitespace w = true) :
    (handleContentChange freshId st (p ++ ('@' :: (name ++ [w])))).content = p ∧
    (handleContentChange freshId st (p ++ ('@' :: (name ++ [w])))).manualTags
      = st.manualTags ∧
    (∃ f ∈ (handleContentChange freshId st (p ++ ('@' :: (name ++ [w])))).folders,
      toLowerStr f.name = toLowerStr name ∧
      f.id ∈ (handleContentChange freshId st (p ++ ('@' :: (name ++ [w])))).manualFolderIds) ∧
    (∀ f, findFolderByName st.folders name = some f →
      (handleContentChange freshId st (p ++ ('@' :: (name ++ [w])))).folders
          = st.folders ∧
      (handleContentChange freshId st (p ++ ('@' :: (name ++ [w])))).manualFolderIds
          = (if f.id ∈ st.manualFolderIds then st.manualFolderIds
             else st.manualFolderIds ++ [f.id])) ∧
    (findFolderByName st.folders name = none →
      (handleContentChange freshId st (p ++ ('@' :: (name ++ [w])))).folders
          = st.folders ++ [{ id := freshId, name := name, icon := some "folder".toList }] ∧
      (handleContentChange freshId st (p ++ ('@' :: (name ++ [w])))).manualFolderIds
          = (if freshId ∈ st.manualFolderIds then st.manualFolderIds
             else st.manualFolderIds ++ [freshId])) := by
  have hm := matchTrailingTrigger_suffix '@' p name w hname hchars hw (by decide)
  have hrm : removeTrigger (p ++ ('@' :: (name ++ [w]))) ('@' :: (name ++ [w])) = p :=
    removeTrigger_append p _ (by simp)
  cases hfind : findFolderByName st.folders name with
  | some f =>
      have hmem : f ∈ st.folders := List.mem_of_find?_eq_some hfind
      have hpred : toLowerStr f.name = toLowerStr name := by
        have := List.find?_some hfind
        simpa using this
      have heq : handleContentChange freshId st (p ++ ('@' :: (name ++ [w])))
          = { st with
                folders := st.folders
                manualFolderIds :=
                  if f.id ∈ st.manualFolderIds then st.manualFolderIds
                  else st.manualFolderIds ++ [f.id]
                content := p } := by
        rw [handleContentChange, hm]
        simp only [findFolderByName] at hfind
        simp [findFolderByName, hfind, hrm]
      refine ⟨by rw [heq], by rw [heq], ⟨f, ?_, hpred, ?_⟩, ?_, ?_⟩
      · rw [heq]; exact hmem
      · rw [heq]
        by_cases hin : f.id ∈ st.manualFolderIds <;> simp [hin]
      · intro g hg
        injection hg with hfg
        subst hfg
        exact ⟨by rw [heq], by rw [heq]⟩
      · intro hnone; exact Option.noConfusion hnone
  | none =>
      have hfresh : ({ id := freshId, name := name, icon := some "folder".toList } : Folder)
          ∈ st.folders ++ [{ id := freshId, name := name, icon := some "folder".toList }] := by
        simp
      have heq : handleContentChange freshId st (p ++ ('@' :: (name ++ [w])))
          = { st with
                folders := st.folders ++ [{ id := freshId, name := name, icon := some "folder".toList }]
                manualFolderIds :=
                  if freshId ∈ st.manualFolderIds then st.manualFolderIds
                  else st.manualFolderIds ++ [freshId]
                content := p } := by
        rw [handleContentChange, hm]
        simp only [findFolderByName] at hfind
        simp [findFolderByName, hfind, hrm, createFolder]
      refine ⟨by rw [heq], by rw [heq],
        ⟨{ id := freshId, name := name, icon := some "folder".toList }, ?_, rfl, ?_⟩, ?_, ?_⟩
      · rw [heq]; exact hfresh
      · rw [heq]
        by_cases hin : freshId ∈ st.manualFolderIds <;> simp [hin]
      · intro g hg; exact Option.noConfusion hg
      · intro _; exact ⟨by rw [heq], by rw [heq]⟩

/-- Witness for C1 at the spec's example: buffer `"Meeting notes @work "` in
an empty editor state becomes `"Meeting notes "` and a folder named `work` is
created and associated. -/
theorem C1_folder_trigger_witness :
    (handleContentChange ['u'] wEmptyEditor
        ("Meeting notes ".toList ++ ('@' :: ("work".toList ++ [' '])))).content
      = "Meeting notes ".toList ∧
    (∃ f ∈ (handleContentChange ['u'] wEmptyEditor
        ("Meeting notes ".toList ++ ('@' :: ("work".toList ++ [' '])))).folders,
      toLowerStr f.name = toLowerStr "work".toList ∧
      f.id ∈ (handleContentChange ['u'] wEmptyEditor
        ("Meeting notes ".toList ++ ('@' :: ("work".toList ++ [' '])))).manualFolderIds) := by
  have h := C1_folder_trigger ['u'] wEmptyEditor "Meeting notes ".toList
    "work".toList ' ' (by decide) (by decide) (by decide)
  exact ⟨h.1, h.2.2.1⟩

/-- C2: on a buffer ending in `#name` plus one whitespace character, one pass
of the content-change handler strips exactly that trailing substring, leaves
folders and folder associations unchanged, and adds the lower-cased name to
the manual tag set only if not already present. -/
theorem C2_tag_trigger (freshId : Str) (st : EditorState) (p name : Str)
    (w : Char) (hname : name ≠ []) (hchars : ∀ c ∈ name, isNameChar c = true)
    (hw : isJSWhitespace w = true) :
    (handleContentChange freshId st (p ++ ('#' :: (name ++ [w])))).content = p ∧
    (handleContentChange freshId st (p ++ ('#' :: (name ++ [w])))).folders
      = st.folders ∧
    (handleContentChange freshId st (p ++ ('#' :: (name ++ [w])))).manualFolderIds
      = st.manualFolderIds ∧
    (handleContentChange freshId st (p ++ ('#' :: (name ++ [w])))).manualTags
      = (if toLowerStr name ∈ st.manualTags then st.manualTags
         else st.manualTags ++ [toLowerStr name]) := by
  have hnofolder := matchTrailingTrigger_other '@' '#' p name w hchars
    (by decide) (by decide)
  have htag := matchTrailingTrigger_suffix '#' p name w hname hchars hw (by decide)
  have hrm : removeTrigger (p ++ ('#' :: (name ++ [w]))) ('#' :: (name ++ [w])) = p :=
    removeTrigger_append p _ (by simp)
  have heq : handleContentChange freshId st (p ++ ('#' :: (name ++ [w])))
      = { st with
            manualTags :=
              if toLowerStr name ∈ st.manualTags then st.manualTags
              else st.manualTags ++ [toLowerStr name]
            content := p } := by
    rw [handleContentChange, hnofolder, htag]
    simp [hrm]
  exact ⟨by rw [heq], by rw [heq], by rw [heq], by rw [heq]⟩

/-- Witness for C2 at the spec's example: buffer `"Buy milk #errand "` in an
empty editor state becomes `"Buy milk "` with manual tags `["errand"]`. -/
theorem C2_tag_trigger_witness :
    (handleContentChange ['u'] wEmptyEditor
        ("Buy milk ".toList ++ ('#' :: ("errand".toList ++ [' '])))).content
      = "Buy milk ".toList ∧
    (handleContentChange ['u'] wEmptyEditor
        ("Buy milk ".toList ++ ('#' :: ("errand".toList ++ [' '])))).manualTags
      = ["errand".toList] := by
  have h := C2_tag_trigger ['u'] wEmptyEditor "Buy milk ".toList
    "errand".toList ' ' (by decide) (by decide) (by decide)
  refine ⟨h.1, ?_⟩
  rw [h.2.2.2]
  decide

/-- C5: per change event at most one trigger fires — the folder pattern is
checked first, and on a folder match the manual tag set is untouched and the
content is the single removal result (no re-run); when neither trailing
pattern matches, the buffer is accepted verbatim and folders, folder
associations and tags are all unchanged. -/
theorem C5_single_trigger (freshId : Str) (st : EditorState) (val : Str) :
    (matchTrailingTrigger '@' val = none → matchTrailingTrigger '#' val = none →
      handleContentChange freshId st val = { st with content := val }) ∧
    (∀ r, matchTrailingTrigger '@' val = some r →
      (handleContentChange freshId st val).manualTags = st.manualTags ∧
      (handleContentChange freshId st val).content = removeTrigger val r.2) := by
  constructor
  · intro h1 h2
    rw [handleContentChange, h1, h2]
  · intro r hr
    rw [handleContentChange, hr]
    cases hfind : findFolderByName st.folders r.1 with
    | some f => simp [hfind]
    | none => simp [hfind]

/-- Witness for C5 at concrete inputs: the empty buffer and a buffer with a
trailing `@name` not yet followed by whitespace are accepted verbatim. -/
theorem C5_single_trigger_witness :
    handleContentChange ['u'] wEmptyEditor [] = { wEmptyEditor with content := [] } ∧
    handleContentChange ['u'] wEmptyEditor "note @wor".toList
      = { wEmptyEditor with content := "note @wor".toList } := by
  constructor
  · exact (C5_single_trigger ['u'] wEmptyEditor []).1 (by decide) (by decide)
  · exact (C5_single_trigger ['u'] wEmptyEditor "note @wor".toList).1
      (by decide) (by decide)

/-! ### Folder pruning (C3) -/

theorem folderUseCount_eq_zero_iff (notes : List Note) (fid : Str) :
    folderUseCount notes fid = 0 ↔ fid ∉ usedFolderIds notes := by
  rw [folderUseCount, List.length_eq_zero, List.filter_eq_nil_iff, usedFolderIds]
  constructor
  · intro h hmem
    obtain ⟨n, hn, hfid⟩ := List.mem_flatMap.mp hmem
    obtain ⟨hn2, hnd⟩ := List.mem_filter.mp hn
    exact h n hn2 (by simp [hnd, hfid])
  · intro h n hn hq
    simp only [Bool.and_eq_true, decide_eq_true_eq] at hq
    exact h (List.mem_flatMap.mpr ⟨n, List.mem_filter.mpr ⟨hn, hq.1⟩, hq.2⟩)

/-- C3: after a note-collection change, every folder whose count of non-deleted
referencing notes is zero is removed both from the in-memory folder collection
and from the persisted folder list, and every folder that remains is referenced
by at least one non-deleted note; soft-deleted notes are excluded from the
count by construction. -/
theorem C3_folder_pruning (notes : List Note) (prev stored : List Folder)
    (f : Folder) (hf : f ∈ prev) (hcount : folderUseCount notes f.id = 0) :
    f ∉ (cleanupFoldersEffect notes prev stored).1 ∧
    f ∉ (cleanupFoldersEffect notes prev stored).2 ∧
    (∀ g ∈ (cleanupFoldersEffect notes prev stored).1,
      folderUseCount notes g.id ≠ 0) := by
  have hnot : f.id ∉ usedFolderIds notes :=
    (folderUseCount_eq_zero_iff notes f.id).mp hcount
  have hfilter : f ∉ cleanupFolders notes prev := by
    rw [cleanupFolders]
    intro hmem
    exact hnot (by simpa using (List.mem_filter.mp hmem).2)
  have hlen : (cleanupFolders notes prev).length ≠ prev.length := by
    intro hlen
    have heq : cleanupFolders notes prev = prev :=
      (List.filter_sublist prev).eq_of_length hlen
    rw [heq] at hfilter
    exact hfilter hf
  have heff : cleanupFoldersEffect notes prev stored
      = (cleanupFolders notes prev, cleanupFolders notes prev) := by
    rw [cleanupFoldersEffect]
    simp only [if_pos hlen]
  refine ⟨by rw [heff]; exact hfilter, by rw [heff]; exact hfilter, ?_⟩
  intro g hg
  rw [heff] at hg
  have hused : g.id ∈ usedFolderIds notes := by
    simpa using (List.mem_filter.mp hg).2
  intro hzero
  exact ((folderUseCount_eq_zero_iff notes g.id).mp hzero) hused

/-- The spec's example folder. -/
def wGroceries : Folder := { id := ['g'], name := "Groceries".toList, icon := none }

/-- A soft-deleted note referencing the example folder. -/
def wTrashedNote : Note :=
  { wNoteA with id := ['t'], folderIds := [['g']], isDeleted := true }

/-- Witness for C3 at the spec's example: a folder referenced only by a
soft-deleted note is removed from the collection and from storage. -/
theorem C3_folder_pruning_witness :
    wGroceries ∉ (cleanupFoldersEffect [wTrashedNote] [wGroceries] [wGroceries]).1 ∧
    wGroceries ∉ (cleanupFoldersEffect [wTrashedNote] [wGroceries] [wGroceries]).2 := by
  have h := C3_folder_pruning [wTrashedNote] [wGroceries] [wGroceries] wGroceries
    (by decide) (by decide)
  exact ⟨h.1, h.2.1⟩

/-! ### Load-time migration and silent recovery (C7) -/

/-- A raw stored note with a present but empty legacy `folderId`. -/
def wRawEmptyFolderId : RawNote :=
  { id := ['r'], title := [], content := [], folderIds := none,
    folderId := some [], tags := [], summary := none, createdAt := 0,
    updatedAt := 0, isDeleted := none }

/-- C7 counterexample: a stored record lacking `folderIds` whose legacy
`folderId` field is present but holds the empty string is migrated to
`folderIds = []`, not to `[folderId]` as the claim states — JavaScript
truthiness treats the empty string like an absent field. -/
theorem C7_counterexample :
    (migrateNote wRawEmptyFolderId).folderIds = [] ∧
    wRawEmptyFolderId.folderId = some [] ∧
    (migrateNote wRawEmptyFolderId).folderIds
      ≠ [wRawEmptyFolderId.folderId.getD []] := by
  refine ⟨by decide, by decide, by decide⟩

/-- C7 (amended): records lacking an array-valued `folderIds` are migrated to
`[folderId]` when a non-empty legacy `folderId` is present and to `[]` when it
is absent or empty; a missing `isDeleted` defaults to `false`; malformed
stored JSON yields the empty note collection resp. the default folder set,
and loading is a total function (recovery is silent). -/
theorem C7_load_migration :
    (∀ raws, loadNotes (some (Except.ok raws)) = raws.map migrateNote) ∧
    (∀ e, loadNotes (some (Except.error e)) = []) ∧
    loadNotes none = [] ∧
    (∀ e, loadFolders (some (Except.error e)) = DEFAULT_FOLDERS) ∧
    loadFolders none = DEFAULT_FOLDERS ∧
    (∀ r : RawNote, ∀ l, r.folderIds = some l → (migrateNote r).folderIds = l) ∧
    (∀ r : RawNote, ∀ fid, r.folderIds = none → r.folderId = some fid →
      fid ≠ [] → (migrateNote r).folderIds = [fid]) ∧
    (∀ r : RawNote, r.folderIds = none → strTruthy r.folderId = false →
      (migrateNote r).folderIds = []) ∧
    (∀ r : RawNote, (migrateNote r).isDeleted = r.isDeleted.getD false) := by
  refine ⟨fun raws => rfl, fun e => rfl, rfl, fun e => rfl, rfl, ?_, ?_, ?_, fun r => rfl⟩
  · intro r l h
    simp [migrateNote, h]
  · intro r fid h1 h2 h3
    simp [migrateNote, h1, h2, h3]
  · intro r h1 h2
    cases hid : r.folderId with
    | none => simp [migrateNote, h1, hid]
    | some fid =>
        rw [hid] at h2
        have : fid.isEmpty = true := by
          simpa [strTruthy] using h2
        simp [migrateNote, h1, hid, this]

/-- A raw stored note with a non-empty legacy `folderId`. -/
def wRawLegacy : RawNote := { wRawEmptyFolderId with folderId := some ['f'] }

/-- Witness for C7 at a concrete record: a non-empty legacy `folderId` is
migrated into a singleton `folderIds`. -/
theorem C7_load_migration_witness :
    (migrateNote wRawLegacy).folderIds = [['f']] :=
  C7_load_migration.2.2.2.2.2.2.1 wRawLegacy ['f'] rfl rfl (by decide)

/-! ### AI enrichment error handling (C9) -/

theorem analyzeNoteContent_snd (apiKey : Option Str)
    (generate : Str → Except Str GenResponse)
    (jsonParse : Str → Except Str AIAnalysisResult) (content : Str) :
    (analyzeNoteContent apiKey generate jsonParse content).2
      = if strTruthy apiKey = true then some (analysisPrompt content)
        else none := by
  by_cases hk : strTruthy apiKey = true
  · rw [if_pos hk, analyzeNoteContent, hk]
    rfl
  · have hk2 : strTruthy apiKey = false := by
      cases h : strTruthy apiKey
      · rfl
      · exact absurd h hk
    rw [if_neg hk, analyzeNoteContent, hk2]
    rfl

/-- C9: `analyzeNoteContent` returns `none` (never an error) when no API
credential is configured, when the external call fails, and when the response
text is absent, empty, or fails to parse; whenever a request is made, the
prompt embeds exactly the first 5000 characters of the note content. -/
theorem C9_analyze (apiKey : Option Str)
    (generate : Str → Except Str GenResponse)
    (jsonParse : Str → Except Str AIAnalysisResult) (content : Str) :
    (strTruthy apiKey = false →
      analyzeNoteContent apiKey generate jsonParse content = (none, none)) ∧
    (∀ e, generate (analysisPrompt content) = Except.error e →
      (analyzeNoteContent apiKey generate jsonParse content).1 = none) ∧
    (∀ resp, generate (analysisPrompt content) = Except.ok resp →
      resp.text = none →
      (analyzeNoteContent apiKey generate jsonParse content).1 = none) ∧
    (∀ resp t e, generate (analysisPrompt content) = Except.ok resp →
      resp.text = some t → jsonParse t = Except.error e →
      (analyzeNoteContent apiKey generate jsonParse content).1 = none) ∧
    (∀ req, (analyzeNoteContent apiKey generate jsonParse content).2 = some req →
      req = "Analyze the following note text and provide metadata: \"".toList
          ++ content.take 5000 ++ "\"".toList) := by
  by_cases hk : strTruthy apiKey = false
  · refine ⟨fun _ => by simp [analyzeNoteContent, hk], ?_, ?_, ?_, ?_⟩
    · intro e he; simp [analyzeNoteContent, hk]
    · intro resp h1 h2; simp [analyzeNoteContent, hk]
    · intro resp t e h1 h2 h3; simp [analyzeNoteContent, hk]
    · intro req hreq
      simp [analyzeNoteContent, hk] at hreq
  · have hk' : strTruthy apiKey = true := by
      cases h : strTruthy apiKey
      · exact absurd h hk
      · rfl
    refine ⟨fun h => absurd h hk, ?_, ?_, ?_, ?_⟩
    · intro e he
      simp [analyzeNoteContent, analyzeResult, hk', he]
    · intro resp h1 h2
      simp [analyzeNoteContent, analyzeResult, hk', h1, h2]
    · intro resp t e h1 h2 h3
      by_cases ht : t.isEmpty
      · simp [analyzeNoteContent, analyzeResult, hk', h1, h2, ht]
      · simp [analyzeNoteContent, analyzeResult, hk', h1, h2, ht, h3]
    · intro req hreq
      rw [analyzeNoteContent_snd, if_pos hk'] at hreq
      have h2 : analysisPrompt content = req := Option.some.inj hreq
      rw [← h2, analysisPrompt]

/-- Witness for C9 at concrete inputs: a missing credential yields
`(none, none)`, and a failing call with a configured credential yields `none`
while the prompt embeds the (short) content in full. -/
theorem C9_analyze_witness :
    analyzeNoteContent none (fun _ => Except.error [])
      (fun _ => Except.error []) ['x'] = (none, none) ∧
    (analyzeNoteContent (some ['k']) (fun _ => Except.error [])
      (fun _ => Except.error []) ['x']).1 = none := by
  constructor
  · exact (C9_analyze none (fun _ => Except.error [])
      (fun _ => Except.error []) ['x']).1 rfl
  · exact (C9_analyze (some ['k']) (fun _ => Except.error [])
      (fun _ => Except.error []) ['x']).2.1 [] rfl

/-! ### Note list filtering and ordering (C6) -/

/-- C6: the displayed list is a permutation of the non-deleted notes passing
the active folder/tag filter and the case-insensitive search over content and
summary, and it is ordered by `updatedAt` descending. -/
theorem C6_filteredNotes (notes : List Note) (view : ViewState)
    (afid atag : Option Str) (q : Str) :
    (filteredNotes notes view afid atag q).Perm
      (notes.filter (fun n =>
        !n.isDeleted &&
        (if view = ViewState.folders && strTruthy afid then
            decide (afid.getD [] ∈ n.folderIds)
         else if view = ViewState.tags && strTruthy atag then
            decide (atag.getD [] ∈ n.tags)
         else true) &&
        (q.isEmpty || searchHit (toLowerStr q) n))) ∧
    (filteredNotes notes view afid atag q).Pairwise
      (fun a b => b.updatedAt ≤ a.updatedAt) := by
  constructor
  · simp only [filteredNotes]
    apply (List.mergeSort_perm _ _).trans
    apply List.Perm.of_eq
    by_cases h1 : (view = ViewState.folders && strTruthy afid) = true
    · by_cases hq : q.isEmpty = true
      · simp only [h1, hq, if_true, List.filter_filter]
        apply List.filter_congr
        intro n _
        simp [Bool.and_comm]
      · simp only [h1, hq, if_true, Bool.false_eq_true, if_false,
          List.filter_filter]
        apply List.filter_congr
        intro n _
        cases hd : !n.isDeleted <;>
          cases hf : decide (afid.getD [] ∈ n.folderIds) <;>
          cases hs : searchHit (toLowerStr q) n <;> simp [hd, hf, hs, hq]
    · by_cases h2 : (view = ViewState.tags && strTruthy atag) = true
      · by_cases hq : q.isEmpty = true
        · simp only [h1, h2, hq, if_true, Bool.false_eq_true, if_false,
            List.filter_filter]
          apply List.filter_congr
          intro n _
          simp [Bool.and_comm]
        · simp only [h1, h2, hq, if_true, Bool.false_eq_true, if_false,
            List.filter_filter]
          apply List.filter_congr
          intro n _
          cases hd : !n.isDeleted <;>
            cases hf : decide (atag.getD [] ∈ n.tags) <;>
            cases hs : searchHit (toLowerStr q) n <;> simp [hd, hf, hs, hq]
      · by_cases hq : q.isEmpty = true
        · simp only [h1, h2, hq, if_true, Bool.false_eq_true, if_false]
          apply List.filter_congr
          intro n _
          simp [hq]
        · simp only [h1, h2, hq, Bool.false_eq_true, if_false,
            List.filter_filter]
          apply List.filter_congr
          intro n _
          cases hd : !n.isDeleted <;>
            cases hs : searchHit (toLowerStr q) n <;> simp [hd, hs, hq]
  · simp only [filteredNotes]
    have hsorted := @List.sorted_mergeSort Note
      (fun a b : Note => decide (b.updatedAt ≤ a.updatedAt))
      (by intro a b c hab hbc
          simp only [decide_eq_true_eq] at hab hbc ⊢
          omega)
      (by intro a b
          rcases Int.le_total b.updatedAt a.updatedAt with h | h <;> simp [h])
      (if q.isEmpty then
         (if view = ViewState.folders && strTruthy afid then
            (notes.filter (fun n => !n.isDeleted)).filter
              (fun n => afid.getD [] ∈ n.folderIds)
          else if view = ViewState.tags && strTruthy atag then
            (notes.filter (fun n => !n.isDeleted)).filter
              (fun n => atag.getD [] ∈ n.tags)
          else notes.filter (fun n => !n.isDeleted))
       else
         (if view = ViewState.folders && strTruthy afid then
            (notes.filter (fun n => !n.isDeleted)).filter
              (fun n => afid.getD [] ∈ n.folderIds)
          else if view = ViewState.tags && strTruthy atag then
            (notes.filter (fun n => !n.isDeleted)).filter
              (fun n => atag.getD [] ∈ n.tags)
          else notes.filter (fun n => !n.isDeleted)).filter
            (searchHit (toLowerStr q)))
    exact hsorted.imp (fun h => by simpa using h)

/-! ### Derived tag extraction (C4) -/

/-- The specification's notion of a `#`-tag occurrence: `w` is a non-empty
maximal word over the name charset immediately preceded by `#` somewhere in
the text (maximality on the right is the head condition on the remainder
`s`; maximality on the left is automatic because `#` is not a name
character). -/
def TagOcc (l : List Char) (w : Str) : Prop :=
  ∃ p s, l = p ++ ('#' :: (w ++ s)) ∧ w ≠ [] ∧
    (∀ c ∈ w, isNameChar c = true) ∧
    (∀ c, s.head? = some c → isNameChar c = false)

theorem scanTags_nil : scanTags [] = [] := by
  rw [scanTags]

theorem scanTags_cons_hash_empty (rest : Str)
    (h : (rest.takeWhile isNameChar).isEmpty = true) :
    scanTags ('#' :: rest) = scanTags rest := by
  rw [scanTags]
  simp [h]

theorem scanTags_cons_hash_run (rest : Str)
    (h : (rest.takeWhile isNameChar).isEmpty = false) :
    scanTags ('#' :: rest)
      = rest.takeWhile isNameChar :: scanTags (rest.dropWhile isNameChar) := by
  rw [scanTags]
  simp [h]

theorem scanTags_cons_other (c : Char) (rest : Str) (h : ¬c = '#') :
    scanTags (c :: rest) = scanTags rest := by
  rw [scanTags]
  simp [h]

/-- Splitting a run: if a list that begins with an all-name-character run `w`
equals `ps ++ c :: tail` with `c` not a name character, then `w` is a prefix
of `ps`. -/
theorem run_split {w ps s tail : Str} {c : Char} (heq : w ++ s = ps ++ c :: tail)
    (hw : ∀ x ∈ w, isNameChar x = true) (hc : isNameChar c = false) :
    ∃ p2, ps = w ++ p2 ∧ s = p2 ++ c :: tail := by
  induction w generalizing ps with
  | nil => exact ⟨ps, rfl, heq⟩
  | cons a w2 ih =>
      cases ps with
      | nil =>
          simp only [List.nil_append, List.cons_append, List.cons.injEq] at heq
          have ha := hw a (List.mem_cons_self a w2)
          rw [heq.1] at ha
          rw [ha] at hc
          cases hc
      | cons b p2 =>
          simp only [List.cons_append, List.cons.injEq] at heq
          obtain ⟨p3, h1, h2⟩ := ih heq.2 (fun x hx => hw x (List.mem_cons_of_mem a hx))
          exact ⟨p3, by rw [heq.1, h1]; rfl, h2⟩

/-- `takeWhile`/`dropWhile` on a run followed by a boundary. -/
theorem takeWhile_dropWhile_run (w s : Str)
    (hw : ∀ x ∈ w, isNameChar x = true)
    (hs : ∀ c, s.head? = some c → isNameChar c = false) :
    (w ++ s).takeWhile isNameChar = w ∧ (w ++ s).dropWhile isNameChar = s := by
  cases s with
  | nil =>
      rw [List.append_nil]
      constructor
      · induction w with
        | nil => rfl
        | cons a w2 ihw =>
            rw [List.takeWhile_cons_of_pos (hw a (List.mem_cons_self a w2)),
              ihw (fun x hx => hw x (List.mem_cons_of_mem a hx))]
      · induction w with
        | nil => rfl
        | cons a w2 ihw =>
            rw [List.dropWhile_cons_of_pos (hw a (List.mem_cons_self a w2)),
              ihw (fun x hx => hw x (List.mem_cons_of_mem a hx))]
  | cons c s2 =>
      have hc := hs c rfl
      exact ⟨takeWhile_run w c s2 hw hc, dropWhile_run w c s2 hw hc⟩

/-- Membership in the scanner output is exactly the occurrence predicate. -/
theorem mem_scanTags_iff (w : Str) :
    ∀ N, ∀ l : List Char, l.length ≤ N → (w ∈ scanTags l ↔ TagOcc l w) := by
  intro N
  induction N with
  | zero =>
      intro l hl
      have hnil : l = [] := List.eq_nil_of_length_eq_zero (Nat.le_zero.mp hl)
      subst hnil
      rw [scanTags_nil]
      constructor
      · intro h; cases h
      · rintro ⟨p, s, heq, -, -, -⟩
        exact absurd heq (by simp)
  | succ N ih =>
      intro l hl
      cases l with
      | nil =>
          rw [scanTags_nil]
          constructor
          · intro h; cases h
          · rintro ⟨p, s, heq, -, -, -⟩
            exact absurd heq (by simp)
      | cons c rest =>
          have hrestlen : rest.length ≤ N := by
            simpa using Nat.lt_succ_iff.mp (Nat.lt_of_lt_of_le (by simp) hl)
          by_cases hc : c = '#'
          · subst hc
            by_cases hrun : (rest.takeWhile isNameChar).isEmpty = true
            · rw [scanTags_cons_hash_empty rest hrun, ih rest hrestlen]
              constructor
              · rintro ⟨p, s, heq, hne, hw, hs⟩
                exact ⟨'#' :: p, s, by rw [heq]; rfl, hne, hw, hs⟩
              · rintro ⟨p, s, heq, hne, hw, hs⟩
                cases p with
                | nil =>
                    simp only [List.nil_append, List.cons.injEq] at heq
                    cases w with
                    | nil => exact absurd rfl hne
                    | cons a w2 =>
                        have ha := hw a (List.mem_cons_self a w2)
                        rw [heq.2, List.cons_append,
                          List.takeWhile_cons_of_pos ha] at hrun
                        simp at hrun
                | cons b p2 =>
                    simp only [List.cons_append, List.cons.injEq] at heq
                    exact ⟨p2, s, heq.2, hne, hw, hs⟩
            · have hrun2 : (rest.takeWhile isNameChar).isEmpty = false := by
                cases h : (rest.takeWhile isNameChar).isEmpty
                · rfl
                · exact absurd h hrun
              rw [scanTags_cons_hash_run rest hrun2]
              have hdroplen : (rest.dropWhile isNameChar).length ≤ N :=
                Nat.le_trans (length_dropWhile_le isNameChar rest) hrestlen
              constructor
              · intro hmem
                rcases List.mem_cons.mp hmem with heqw | hmem2
                · subst heqw
                  refine ⟨[], rest.dropWhile isNameChar, ?_, ?_, ?_, ?_⟩
                  · rw [List.nil_append, List.takeWhile_append_dropWhile]
                  · simpa using hrun2
                  · intro x hx
                    simpa using List.mem_takeWhile_imp hx
                  · intro ch hch
                    have := List.head?_dropWhile_not isNameChar rest
                    rw [hch] at this
                    exact this
                · obtain ⟨p, s, heq, hne, hw, hs⟩ := (ih _ hdroplen).mp hmem2
                  refine ⟨'#' :: (rest.takeWhile isNameChar ++ p), s, ?_, hne, hw, hs⟩
                  have hsplit : rest = rest.takeWhile isNameChar ++ rest.dropWhile isNameChar :=
                    (List.takeWhile_append_dropWhile isNameChar rest).symm
                  rw [List.cons_append, List.append_assoc, ← heq, ← hsplit]
              · rintro ⟨p, s, heq, hne, hw, hs⟩
                cases p with
                | nil =>
                    simp only [List.nil_append, List.cons.injEq] at heq
                    obtain ⟨ht, -⟩ := takeWhile_dropWhile_run w s hw hs
                    rw [← heq.2] at ht
                    exact List.mem_cons.mpr (Or.inl ht.symm)
                | cons b p2 =>
                    simp only [List.cons_append, List.cons.injEq] at heq
                    have hsplit : rest.takeWhile isNameChar ++ rest.dropWhile isNameChar
                        = p2 ++ '#' :: (w ++ s) := by
                      rw [List.takeWhile_append_dropWhile]; exact heq.2
                    obtain ⟨p3, -, h2⟩ := run_split hsplit
                      (fun x hx => List.mem_takeWhile_imp hx) (by decide)
                    refine List.mem_cons.mpr (Or.inr ((ih _ hdroplen).mpr ?_))
                    exact ⟨p3, s, h2, hne, hw, hs⟩
          · rw [scanTags_cons_other c rest hc, ih rest hrestlen]
            constructor
            · rintro ⟨p, s, heq, hne, hw, hs⟩
              exact ⟨c :: p, s, by rw [heq]; rfl, hne, hw, hs⟩
            · rintro ⟨p, s, heq, hne, hw, hs⟩
              cases p with
              | nil =>
                  simp only [List.nil_append, List.cons.injEq] at heq
                  exact absurd heq.1 hc
              | cons b p2 =>
                  simp only [List.cons_append, List.cons.injEq] at heq
                  exact ⟨p2, s, heq.2, hne, hw, hs⟩

theorem mem_dedupFirst (seen : Str → Bool) (l : List Str) (x : Str) :
    x ∈ dedupFirst seen l ↔ x ∈ l ∧ seen x = false := by
  induction l generalizing seen with
  | nil => simp [dedupFirst]
  | cons a l ih =>
      rw [dedupFirst]
      by_cases ha : seen a = true
      · rw [if_pos ha, ih]
        constructor
        · rintro ⟨hx, hsx⟩
          exact ⟨List.mem_cons_of_mem a hx, hsx⟩
        · rintro ⟨hx, hsx⟩
          rcases List.mem_cons.mp hx with hxa | hxl
          · rw [hxa] at hsx; rw [hsx] at ha; cases ha
          · exact ⟨hxl, hsx⟩
      · have ha2 : seen a = false := by
          cases h : seen a
          · rfl
          · exact absurd h ha
        rw [if_neg ha]
        by_cases hxa : x = a
        · subst hxa
          simp [ha2]
        · constructor
          · intro hmem
            rcases List.mem_cons.mp hmem with h | h
            · exact absurd h hxa
            · obtain ⟨hx, hsx⟩ := (ih _).mp h
              simp only [Bool.or_eq_false_iff] at hsx
              exact ⟨List.mem_cons_of_mem a hx, hsx.1⟩
          · rintro ⟨hx, hsx⟩
            rcases List.mem_cons.mp hx with h | h
            · exact absurd h hxa
            · refine List.mem_cons.mpr (Or.inr ((ih _).mpr ⟨h, ?_⟩))
              simp [hsx, hxa]

theorem nodup_dedupFirst (seen : Str → Bool) (l : List Str) :
    (dedupFirst seen l).Nodup := by
  induction l generalizing seen with
  | nil => simp [dedupFirst]
  | cons a l ih =>
      rw [dedupFirst]
      by_cases ha : seen a = true
      · rw [if_pos ha]; exact ih seen
      · rw [if_neg ha]
        refine List.Nodup.cons ?_ (ih _)
        intro hmem
        have h := ((mem_dedupFirst _ _ _).mp hmem).2
        simp at h

/-- C4: derived tag extraction returns exactly the distinct lower-casings of
the maximal name-charset words immediately preceded by `#` anywhere in the
text; the output is duplicate-free, and extraction is deterministic (two runs
on the same content agree). -/
theorem C4_derived_tags (content : Str) (t : Str) :
    (t ∈ parseMetadataFromText content ↔
      ∃ p w s, content = p ++ ('#' :: (w ++ s)) ∧ w ≠ [] ∧
        (∀ c ∈ w, isNameChar c = true) ∧
        (∀ c, s.head? = some c → isNameChar c = false) ∧
        t = toLowerStr w) ∧
    (parseMetadataFromText content).Nodup ∧
    parseMetadataFromText content = parseMetadataFromText content := by
  refine ⟨?_, nodup_dedupFirst _ _, rfl⟩
  rw [parseMetadataFromText, mem_dedupFirst]
  constructor
  · rintro ⟨hmem, -⟩
    obtain ⟨u, hu, hut⟩ := List.mem_map.mp hmem
    obtain ⟨p, s, heq, hne, hw, hs⟩ :=
      (mem_scanTags_iff u content.length content (Nat.le_refl _)).mp hu
    exact ⟨p, u, s, heq, hne, hw, hs, hut.symm⟩
  · rintro ⟨p, w, s, heq, hne, hw, hs, ht⟩
    refine ⟨List.mem_map.mpr ⟨w, ?_, ht.symm⟩, rfl⟩
    exact (mem_scanTags_iff w content.length content (Nat.le_refl _)).mpr
      ⟨p, s, heq, hne, hw, hs⟩

/-! ### Deduplication invariant over application operations (C8) -/

/-- The editor-level part of the invariant. -/
def EditorWF (st : EditorState) : Prop :=
  st.manualFolderIds.Nodup ∧ st.manualTags.Nodup

theorem nodup_append_singleton (l : List Str) (x : Str) (h : l.Nodup)
    (hx : x ∉ l) : (l ++ [x]).Nodup := by
  refine List.Nodup.append h (List.nodup_singleton x) ?_
  intro a ha hax
  rw [List.mem_singleton.mp hax] at ha
  exact hx ha

theorem addUnique_nodup (l : List Str) (x : Str) (h : l.Nodup) :
    (if x ∈ l then l else l ++ [x]).Nodup := by
  by_cases hx : x ∈ l
  · rw [if_pos hx]; exact h
  · rw [if_neg hx]; exact nodup_append_singleton l x h hx

theorem handleContentChange_wf (freshId : Str) (st : EditorState) (val : Str)
    (h : EditorWF st) : EditorWF (handleContentChange freshId st val) := by
  obtain ⟨h1, h2⟩ := h
  rw [handleContentChange]
  cases matchTrailingTrigger '@' val with
  | some r => exact ⟨addUnique_nodup _ _ h1, h2⟩
  | none =>
      cases matchTrailingTrigger '#' val with
      | some r => exact ⟨h1, addUnique_nodup _ _ h2⟩
      | none => exact ⟨h1, h2⟩

theorem folderInputCommit_wf (freshId : Str) (raw : Str) (st : EditorState)
    (h : EditorWF st) : EditorWF (folderInputCommit freshId raw st) := by
  obtain ⟨h1, h2⟩ := h
  simp only [folderInputCommit]
  repeat' split
  all_goals
    first
      | exact ⟨h1, h2⟩
      | (rename_i hnot; exact ⟨nodup_append_singleton _ _ h1 hnot, h2⟩)

theorem tagInputCommit_wf (raw : Str) (st : EditorState) (h : EditorWF st) :
    EditorWF (tagInputCommit raw st) := by
  obtain ⟨h1, h2⟩ := h
  simp only [tagInputCommit]
  repeat' split
  all_goals
    first
      | exact ⟨h1, h2⟩
      | (rename_i hcond
         rw [Bool.and_eq_true] at hcond
         refine ⟨h1, nodup_append_singleton _ _ h2 ?_⟩
         intro hmem
         have h3 := hcond.2
         simp [hmem] at h3)

theorem toggleFolder_wf (id : Str) (st : EditorState) (h : EditorWF st) :
    EditorWF (toggleFolder id st) := by
  obtain ⟨h1, h2⟩ := h
  rw [toggleFolder]
  split
  · exact ⟨List.Nodup.filter _ h1, h2⟩
  · rename_i hnot
    exact ⟨nodup_append_singleton _ _ h1 hnot, h2⟩

theorem removeTag_wf (t : Str) (st : EditorState) (h : EditorWF st) :
    EditorWF (removeTag t st) :=
  ⟨h.1, List.Nodup.filter _ h.2⟩

theorem applyEditorOp_wf (st : EditorState) (eop : EditorOp) (h : EditorWF st) :
    EditorWF (applyEditorOp st eop) := by
  cases eop with
  | contentChange freshId val => exact handleContentChange_wf freshId st val h
  | folderInput freshId raw => exact folderInputCommit_wf freshId raw st h
  | tagInput raw => exact tagInputCommit_wf raw st h
  | toggle id => exact toggleFolder_wf id st h
  | untag t => exact removeTag_wf t st h

theorem runEditor_wf (eops : List EditorOp) :
    ∀ st, EditorWF st → EditorWF (runEditor st eops) := by
  induction eops with
  | nil => intro st h; exact h
  | cons e es ih => intro st h; exact ih _ (applyEditorOp_wf st e h)

theorem editorSavedNote_wf (note : Note) (st : EditorState) (now : Int)
    (hst : EditorWF st) : NoteWF (editorSavedNote note st now) :=
  ⟨hst.1, nodup_dedupFirst _ _⟩

theorem createNewNote_wf (freshId : Str) (view : ViewState)
    (afid atag : Option Str) (now : Int) :
    NoteWF (createNewNote freshId view afid atag now) := by
  refine ⟨?_, ?_⟩ <;> simp only [createNewNote] <;> split <;> simp

theorem saveNote_all_wf (note : Note) (prev : List Note) (hnote : NoteWF note)
    (hprev : ∀ n ∈ prev, NoteWF n) : ∀ n ∈ saveNote note prev, NoteWF n := by
  intro n hn
  cases hidx : prev.findIdx? (fun m => m.id = note.id) with
  | some i =>
      have hs : saveNote note prev = prev.set i note := by rw [saveNote, hidx]
      rw [hs] at hn
      rcases List.mem_or_eq_of_mem_set hn with h | h
      · exact hprev n h
      · rw [h]; exact hnote
  | none =>
      have hs : saveNote note prev = note :: prev := by rw [saveNote, hidx]
      rw [hs] at hn
      rcases List.mem_cons.mp hn with h | h
      · rw [h]; exact hnote
      · exact hprev n h

theorem deleteNote_all_wf (id : Str) (prev : List Note)
    (hprev : ∀ n ∈ prev, NoteWF n) : ∀ n ∈ deleteNote id prev, NoteWF n := by
  intro n hn
  obtain ⟨m, hm, hmn⟩ := List.mem_map.mp hn
  have hwf := hprev m hm
  by_cases hid : m.id = id
  · rw [← hmn]; simp only [hid, if_pos rfl]
    exact ⟨hwf.1, hwf.2⟩
  · rw [← hmn]; simp only [if_neg hid]
    exact hwf

theorem restoreNote_all_wf (id : Str) (prev : List Note)
    (hprev : ∀ n ∈ prev, NoteWF n) : ∀ n ∈ restoreNote id prev, NoteWF n := by
  intro n hn
  obtain ⟨m, hm, hmn⟩ := List.mem_map.mp hn
  have hwf := hprev m hm
  by_cases hid : m.id = id
  · rw [← hmn]; simp only [hid, if_pos rfl]
    exact ⟨hwf.1, hwf.2⟩
  · rw [← hmn]; simp only [if_neg hid]
    exact hwf

theorem applyOp_wf (m : AppModel) (op : Op) (h : ∀ n ∈ m.notes, NoteWF n) :
    ∀ n ∈ (applyOp m op).notes, NoteWF n := by
  cases op with
  | createNew freshId view afid atag now =>
      exact saveNote_all_wf _ _ (createNewNote_wf freshId view afid atag now) h
  | editSession noteId eops now =>
      cases hfind : m.notes.find? (fun n => n.id = noteId) with
      | none =>
          have heq : applyOp m (Op.editSession noteId eops now) = m := by
            rw [applyOp, hfind]
          rw [heq]
          exact h
      | some note =>
          have hnote : NoteWF note := h note (List.mem_of_find?_eq_some hfind)
          have hst := runEditor_wf eops
            { folders := m.folders
              manualFolderIds := note.folderIds
              manualTags := note.tags
              content := note.content } ⟨hnote.1, hnote.2⟩
          have heq : (applyOp m (Op.editSession noteId eops now)).notes
              = saveNote (editorSavedNote note (runEditor
                  { folders := m.folders
                    manualFolderIds := note.folderIds
                    manualTags := note.tags
                    content := note.content } eops) now) m.notes := by
            rw [applyOp, hfind]
          rw [heq]
          exact saveNote_all_wf _ _ (editorSavedNote_wf _ _ _ hst) h
  | softDelete id => exact deleteNote_all_wf id m.notes h
  | restore id => exact restoreNote_all_wf id m.notes h
  | purge id =>
      intro n hn
      exact h n (List.mem_of_mem_filter hn)
  | clearTrash =>
      intro n hn
      exact h n (List.mem_of_mem_filter hn)

/-- C8: every note produced by any sequence of application operations
(creating a note, editor sessions with trigger commits, folder/tag input
commits, toggles and removals, saving, soft-deleting, restoring, purging),
starting from a state whose notes are well-formed, has duplicate-free
`folderIds` and `tags`. -/
theorem C8_dedup_invariant (ops : List Op) (m : AppModel)
    (h : ∀ n ∈ m.notes, NoteWF n) :
    ∀ n ∈ (applyOps m ops).notes, NoteWF n := by
  induction ops generalizing m with
  | nil => exact h
  | cons op ops ih => exact ih _ (applyOp_wf m op h)

/-- The note produced by `createNewNote` in the C8 witness run. -/
def wCreatedNote : Note :=
  { id := ['n'], title := [], content := [], folderIds := [], tags := []
    summary := none, createdAt := 0, updatedAt := 0, isDeleted := false }

/-- Witness for C8 at a concrete run: starting from the empty state (whose
notes vacuously satisfy the invariant), creating a note produces a
well-formed note. -/
theorem C8_dedup_invariant_witness : NoteWF wCreatedNote := by
  have h := C8_dedup_invariant [Op.createNew ['n'] ViewState.home none none 0]
    { notes := [], folders := [] } (by intro n hn; cases hn)
  exact h _ (by decide)

end Sanchita
